import Mathlib

/-!
Verification of the woolf quote-detection core against its Python sources
(`fset_manager.py`, `punctuated_spaces.py`): the span-preserving tokenizer,
the backoff tagger chain, the windowing engine, the two quote-process
strategies, and the vector-space bookkeeping.

Texts are embedded as `List Char`, character offsets as `Nat`, Python
dictionaries with always-`True` values as insertion-ordered key lists, and
generators as eagerly produced lists (the sources only ever drive them to
completion).
-/

namespace Woolf

/-! ## Windowing engine (`AQuoteProcess.windows`, fset_manager.py:152-159) -/

/-- The loop body of `AQuoteProcess.windows`: the deque `w` receives each
item, is popped from the left once it exceeds `window_size`, and a snapshot
of it is yielded after every item. -/
def windowsGo {α : Type*} (window_size : Nat) (w : List α) : List α → List (List α)
  | [] => []
  | item :: rest =>
    let w2 := w ++ [item]
    let w3 := if window_size < w2.length then w2.tail else w2
    w3 :: windowsGo window_size w3 rest

/-- `AQuoteProcess.windows(seq, window_size)`: iterates over sliding
right-aligned chunks of `seq`, starting from an empty deque. -/
def windows {α : Type*} (seq : List α) (window_size : Nat) : List (List α) :=
  windowsGo window_size [] seq

theorem windowsGo_eq {α : Type*} (k : Nat) (seq : List α) :
    ∀ w : List α, w.length ≤ k →
      windowsGo k w seq =
        (List.range seq.length).map
          (fun i => (w ++ seq.take (i + 1)).drop (w.length + (i + 1) - k)) := by
  induction seq with
  | nil => intro w hw; simp [windowsGo]
  | cons item rest ih =>
    intro w hw
    have htail : ∀ (l r : List α) (x : α) (n : Nat),
        ((l ++ [x]) ++ r).drop (n + 1) = ((l ++ [x]).tail ++ r).drop n := by
      intro l r x n
      cases l with
      | nil => simp
      | cons a l' => simp
    rw [windowsGo]
    simp only [List.length_cons]
    rw [List.range_succ_eq_map, List.map_cons, List.map_map]
    by_cases hk : k < (w ++ [item]).length
    · -- the deque was full: pop from the left
      have hwk : w.length = k := by
        simp only [List.length_append, List.length_cons, List.length_nil] at hk
        omega
      simp only [if_pos hk]
      congr 1
      · -- head window
        have : (w ++ (item :: rest).take (0 + 1)).drop (w.length + (0 + 1) - k) =
            (w ++ [item]).tail := by
          simp only [List.take_succ_cons, List.take_zero, hwk]
          have : k + (0 + 1) - k = 1 := by omega
          rw [this]
          cases w with
          | nil => simp
          | cons a w' => simp
        rw [this]
      · -- remaining windows
        have hlen : (w ++ [item]).tail.length ≤ k := by
          simp only [List.length_tail, List.length_append, List.length_cons,
            List.length_nil]
          omega
        rw [ih _ hlen]
        apply List.map_congr_left
        intro i _
        simp only [Function.comp_apply, List.take_succ_cons, Nat.succ_eq_add_one]
        have h1 : w.length + (i + 1 + 1) - k = (w.length + (i + 1) - k) + 1 := by
          omega
        have h2 : (w ++ [item]).tail.length + (i + 1) - k = w.length + (i + 1) - k := by
          simp only [List.length_tail, List.length_append, List.length_cons,
            List.length_nil]
          omega
        rw [h1, h2, show w ++ item :: rest.take (i + 1) = (w ++ [item]) ++ rest.take (i + 1) by simp,
          htail]
    · -- the deque still fits
      have hwk : w.length + 1 ≤ k := by
        simp only [List.length_append, List.length_cons, List.length_nil] at hk
        omega
      simp only [if_neg hk]
      congr 1
      · simp only [List.take_succ_cons, List.take_zero]
        have : w.length + (0 + 1) - k = 0 := by omega
        rw [this]
        simp
      · have hlen : (w ++ [item]).length ≤ k := by
          simp only [List.length_append, List.length_cons, List.length_nil]
          omega
        rw [ih _ hlen]
        apply List.map_congr_left
        intro i _
        simp only [Function.comp_apply, List.take_succ_cons, Nat.succ_eq_add_one]
        have h2 : (w ++ [item]).length + (i + 1) - k = w.length + (i + 1 + 1) - k := by
          simp only [List.length_append, List.length_cons, List.length_nil]
          omega
        rw [h2, show w ++ item :: rest.take (i + 1) = (w ++ [item]) ++ rest.take (i + 1) by simp]

theorem windows_eq {α : Type*} (seq : List α) (k : Nat) :
    windows seq k =
      (List.range seq.length).map (fun i => (seq.take (i + 1)).drop (i + 1 - k)) := by
  rw [windows, windowsGo_eq k seq [] (by simp)]
  simp

theorem windows_getD {α : Type*} (seq : List α) (k i : Nat) (hi : i < seq.length) :
    (windows seq k).getD i [] = (seq.take (i + 1)).drop (i + 1 - k) := by
  rw [windows_eq]
  rw [List.getD_eq_getElem _ _ (by simpa using hi)]
  simp

theorem windows_length_window {α : Type*} (seq : List α) (k i : Nat)
    (hi : i < seq.length) :
    ((windows seq k).getD i []).length = min (i + 1) k := by
  rw [windows_getD seq k i hi]
  simp only [List.length_drop, List.length_take]
  omega

theorem countP_range_ge (k : Nat) : ∀ n : Nat, 1 ≤ k → k ≤ n →
    (List.range n).countP (fun i => decide (k ≤ i + 1)) = n - k + 1 := by
  intro n
  induction n with
  | zero => intro h1 h2; omega
  | succ m ih =>
    intro h1 h2
    rw [List.range_succ, List.countP_append]
    by_cases hm : k ≤ m
    · rw [ih h1 hm]
      have : (List.countP (fun i => decide (k ≤ i + 1)) [m]) = 1 := by
        simp [List.countP_cons, decide_eq_true_eq]
        omega
      rw [this]
      omega
    · have hkm : k = m + 1 := by omega
      have hz : (List.range m).countP (fun i => decide (k ≤ i + 1)) = 0 := by
        rw [List.countP_eq_zero]
        intro a ha
        simp only [List.mem_range] at ha
        simp only [decide_eq_true_eq]
        omega
      rw [hz]
      have : (List.countP (fun i => decide (k ≤ i + 1)) [m]) = 1 := by
        simp [List.countP_cons, decide_eq_true_eq]
        omega
      rw [this]
      omega

theorem countP_range_lt (k : Nat) : ∀ n : Nat,
    (List.range n).countP (fun i => decide (i + 1 < k)) = min (k - 1) n := by
  intro n
  induction n with
  | zero => simp
  | succ m ih =>
    rw [List.range_succ, List.countP_append, ih]
    by_cases hm : m + 1 < k
    · have : (List.countP (fun i => decide (i + 1 < k)) [m]) = 1 := by
        simp [List.countP_cons, hm]
      rw [this]
      omega
    · have : (List.countP (fun i => decide (i + 1 < k)) [m]) = 0 := by
        simp [List.countP_cons, hm]
      rw [this]
      omega

/-- Claim C2: for every finite sequence of length `n` and window size
`k ≥ 1`, `windows(seq, k)` yields exactly `n` windows; the `i`-th window is
the right-aligned tail of the first `i+1` items (so its length is
`min (i+1) k`, non-decreasing until it reaches `k` and exactly `k`
thereafter); for `n ≥ k` there are exactly `n - k + 1` windows of length `k`
and `min (k-1, n) = k-1` shorter leading ones; and
`windows([1,2,3,4,5], 3)` yields `[1],[1,2],[1,2,3],[2,3,4],[3,4,5]`. -/
theorem windows_spec {α : Type*} (seq : List α) (k : Nat) (hk : 1 ≤ k) :
    (windows seq k).length = seq.length ∧
    (∀ i, i < seq.length →
      (windows seq k).getD i [] = (seq.take (i + 1)).drop (i + 1 - k) ∧
      ((windows seq k).getD i []).length = min (i + 1) k) ∧
    (k ≤ seq.length →
      (windows seq k).countP (fun w => decide (w.length = k)) = seq.length - k + 1 ∧
      (windows seq k).countP (fun w => decide (w.length < k)) = min (k - 1) seq.length) ∧
    windows [1, 2, 3, 4, 5] 3 = [[1], [1, 2], [1, 2, 3], [2, 3, 4], [3, 4, 5]] := by
  refine ⟨by rw [windows_eq]; simp, fun i hi => ⟨windows_getD seq k i hi, windows_length_window seq k i hi⟩, fun hn => ?_, by decide⟩
  constructor
  · rw [windows_eq, List.countP_map]
    have hcongr : (List.range seq.length).countP
        ((fun w : List α => decide (w.length = k)) ∘
          (fun i => (seq.take (i + 1)).drop (i + 1 - k))) =
        (List.range seq.length).countP (fun i => decide (k ≤ i + 1)) := by
      apply List.countP_congr
      intro i hi
      simp only [List.mem_range] at hi
      simp only [Function.comp_apply, List.length_drop, List.length_take,
        decide_eq_true_eq]
      omega
    rw [hcongr, countP_range_ge k seq.length hk hn]
  · rw [windows_eq, List.countP_map]
    have hcongr : (List.range seq.length).countP
        ((fun w : List α => decide (w.length < k)) ∘
          (fun i => (seq.take (i + 1)).drop (i + 1 - k))) =
        (List.range seq.length).countP (fun i => decide (i + 1 < k)) := by
      apply List.countP_congr
      intro i hi
      simp only [List.mem_range] at hi
      simp only [Function.comp_apply, List.length_drop, List.length_take,
        decide_eq_true_eq]
      omega
    rw [hcongr, countP_range_lt k seq.length]

/-- Witness for claim C2 at `seq = [10, 20, 30]`, `k = 2`. -/
theorem windows_spec_witness :
    (windows [10, 20, 30] 2).length = 3 ∧
    (windows [10, 20, 30] 2).getD 2 [] = [20, 30] ∧
    (windows [10, 20, 30] 2).countP (fun w => decide (w.length = 2)) = 2 := by
  have h := windows_spec [10, 20, 30] 2 (by decide)
  refine ⟨h.1.trans (by decide), ?_, ?_⟩
  · exact ((h.2.1 2 (by decide)).1).trans (by decide)
  · exact ((h.2.2.1 (by decide)).1).trans (by decide)

/-! ## Span-preserving tokenizer (`split_sentences`, fset_manager.py:32-55,
and `InternalStyle.tokenize_corpus`, fset_manager.py:358-382) -/

/-- `\w` of the tokenizing regex `r'\w+|[\'\"\/^/\,\-\:\.\;\?\!\(0-9]'`:
a word character (letters, digits, underscore). -/
def isWordChar (c : Char) : Bool := c.isAlphanum || c == '_'

/-- The single-character alternative of the tokenizing regex: one of the
punctuation characters `' " / ^ , - : . ; ? ! (` or a digit. -/
def isPunctTok (c : Char) : Bool :=
  c == '\'' || c == '"' || c == '/' || c == '^' || c == ',' || c == '-' || c == ':' ||
    c == '.' || c == ';' || c == '?' || c == '!' || c == '(' || c.isDigit

/-- `re.finditer` of the tokenizing regex over a sentence, with explicit fuel
(one unit per consumed character): at each position a maximal run of word
characters is matched first, else a single punctuation character, else the
character is dropped; each match carries its `(start, end)` span inside the
sentence. -/
def scanTokensF : Nat → List Char → Nat → List (List Char × Nat × Nat)
  | 0, _, _ => []
  | _ + 1, [], _ => []
  | fuel + 1, c :: rest, pos =>
    if isWordChar c then
      let run := rest.takeWhile isWordChar
      (c :: run, pos, pos + (run.length + 1)) ::
        scanTokensF fuel (rest.dropWhile isWordChar) (pos + (run.length + 1))
    else if isPunctTok c then
      ([c], pos, pos + 1) :: scanTokensF fuel rest (pos + 1)
    else
      scanTokensF fuel rest (pos + 1)

/-- The matches of the tokenizing regex over a sentence, spans relative to
position `pos`. -/
def scanTokens (sent : List Char) (pos : Nat) : List (List Char × Nat × Nat) :=
  scanTokensF sent.length sent pos

/-- The normalization applied to each matched token:
`match.group(0).lower().replace('_', '')`. -/
def normalize (s : List Char) : List Char :=
  (s.map Char.toLower).filter (fun c => !(c == '_'))

/-- `split_sentences(text, tokenizer, offset)` (fset_manager.py:32-55). The
pretrained punkt sentence model is an external collaborator, so the sentence
spans it returns for `text` are taken as the parameter `sentence_spans`; each
sentence slice is sub-tokenized and every token is paired with
`(mstart + seg_start, mend + seg_start)` where `seg_start = start + offset`. -/
def split_sentences (text : List Char) (sentence_spans : List (Nat × Nat))
    (offset : Nat) : List (List (List Char × Nat × Nat)) :=
  sentence_spans.map (fun se =>
    let sent := (text.drop se.1).take (se.2 - se.1)
    (scanTokens sent 0).map (fun m =>
      (normalize m.1, m.2.1 + (se.1 + offset), m.2.2 + (se.1 + offset))))

/-- `InternalStyle.tokenize_corpus` (fset_manager.py:358-382). Modelled from
the spec where it leaves `src/`: `ps.split_quoted_quotes` and the punkt
sentence model are external collaborators, so the quote-delimited partition of
the document is taken as the list `pieces` of consecutive substrings and the
sentence model as the function `sentence_spans`. The loop keeps a running
`segment_start` offset, increased by each consumed span's length. -/
def tokenize_corpus (sentence_spans : List Char → List (Nat × Nat)) :
    List (List Char) → Nat → List (List (List Char × Nat × Nat))
  | [], _ => []
  | span :: rest, segment_start =>
    split_sentences span (sentence_spans span) segment_start ++
      tokenize_corpus sentence_spans rest (segment_start + span.length)

theorem length_takeWhile_add_dropWhile (p : Char → Bool) (l : List Char) :
    (l.takeWhile p).length + (l.dropWhile p).length = l.length := by
  rw [← List.length_append, List.takeWhile_append_dropWhile]

theorem take_takeWhile_length (p : Char → Bool) (l : List Char) :
    l.take (l.takeWhile p).length = l.takeWhile p := by
  induction l with
  | nil => rfl
  | cons a t ih =>
    by_cases h : p a
    · simp [List.takeWhile_cons, h, ih]
    · simp [List.takeWhile_cons, h]

theorem scanTokensF_spec : ∀ (fuel : Nat) (l : List Char) (pos : Nat),
    l.length ≤ fuel →
    ∀ tok ∈ scanTokensF fuel l pos,
      pos ≤ tok.2.1 ∧ tok.2.1 < tok.2.2 ∧ tok.2.2 ≤ pos + l.length ∧
      tok.1 = (l.drop (tok.2.1 - pos)).take (tok.2.2 - tok.2.1) := by
  intro fuel
  induction fuel with
  | zero => intro l pos _ tok htok; simp [scanTokensF] at htok
  | succ fuel ih =>
    intro l pos hl tok htok
    match l with
    | [] => simp [scanTokensF] at htok
    | c :: rest =>
      simp only [List.length_cons] at hl
      rw [scanTokensF] at htok
      by_cases hw : isWordChar c
      · rw [if_pos hw] at htok
        have hsum := length_takeWhile_add_dropWhile isWordChar rest
        rcases List.mem_cons.mp htok with heq | hmem
        · subst heq
          dsimp only
          refine ⟨Nat.le_refl _, by omega, by simp only [List.length_cons]; omega, ?_⟩
          have e1 : pos - pos = 0 := by omega
          have e2 : pos + ((rest.takeWhile isWordChar).length + 1) - pos =
              (rest.takeWhile isWordChar).length + 1 := by omega
          rw [e1, e2, List.drop_zero, List.take_succ_cons, take_takeWhile_length]
        · have hfl : (rest.dropWhile isWordChar).length ≤ fuel := by omega
          obtain ⟨h1, h2, h3, h4⟩ := ih _ _ hfl tok hmem
          obtain ⟨d, hd⟩ : ∃ d,
              tok.2.1 = pos + ((rest.takeWhile isWordChar).length + 1) + d :=
            ⟨tok.2.1 - (pos + ((rest.takeWhile isWordChar).length + 1)), by omega⟩
          refine ⟨by omega, h2, by simp only [List.length_cons]; omega, ?_⟩
          rw [h4, hd]
          have hds : pos + ((rest.takeWhile isWordChar).length + 1) + d - pos =
              ((rest.takeWhile isWordChar).length + d) + 1 := by omega
          have hds2 : pos + ((rest.takeWhile isWordChar).length + 1) + d -
              (pos + ((rest.takeWhile isWordChar).length + 1)) = d := by omega
          rw [hds, hds2, List.drop_succ_cons]
          congr 1
          calc (rest.dropWhile isWordChar).drop d
              = (rest.takeWhile isWordChar ++ rest.dropWhile isWordChar).drop
                  ((rest.takeWhile isWordChar).length + d) := (List.drop_append d).symm
            _ = rest.drop ((rest.takeWhile isWordChar).length + d) := by
                rw [List.takeWhile_append_dropWhile]
      · rw [if_neg hw] at htok
        have hstep : ∀ tok ∈ scanTokensF fuel rest (pos + 1),
            pos ≤ tok.2.1 ∧ tok.2.1 < tok.2.2 ∧ tok.2.2 ≤ pos + (rest.length + 1) ∧
            tok.1 = ((c :: rest).drop (tok.2.1 - pos)).take (tok.2.2 - tok.2.1) := by
          intro t ht
          obtain ⟨h1, h2, h3, h4⟩ := ih _ _ (by omega) t ht
          refine ⟨by omega, h2, by omega, ?_⟩
          rw [h4]
          have : t.2.1 - pos = (t.2.1 - (pos + 1)) + 1 := by omega
          rw [this, List.drop_succ_cons]
        by_cases hp : isPunctTok c
        · rw [if_pos hp] at htok
          rcases List.mem_cons.mp htok with heq | hmem
          · subst heq
            dsimp only
            refine ⟨Nat.le_refl _, by omega, by simp only [List.length_cons]; omega, ?_⟩
            have e1 : pos - pos = 0 := by omega
            have e2 : pos + 1 - pos = 1 := by omega
            rw [e1, e2, List.drop_zero]
            rfl
          · have h := hstep tok hmem
            simpa only [List.length_cons] using h
        · rw [if_neg hp] at htok
          have h := hstep tok htok
          simpa only [List.length_cons] using h

theorem split_sentences_spec (text : List Char) (sentence_spans : List (Nat × Nat))
    (offset : Nat) :
    ∀ sent ∈ split_sentences text sentence_spans offset, ∀ tok ∈ sent,
      offset ≤ tok.2.1 ∧ tok.2.1 < tok.2.2 ∧ tok.2.2 ≤ offset + text.length ∧
      normalize ((text.drop (tok.2.1 - offset)).take (tok.2.2 - tok.2.1)) = tok.1 := by
  intro sent hsent tok htok
  rw [split_sentences, List.mem_map] at hsent
  obtain ⟨se, _, hse⟩ := hsent
  subst hse
  rw [List.mem_map] at htok
  obtain ⟨m, hm, hmtok⟩ := htok
  subst hmtok
  dsimp only
  have hspec := scanTokensF_spec _ _ 0 (Nat.le_refl _) m hm
  obtain ⟨_, h2, h3, h4⟩ := hspec
  simp only [Nat.zero_add] at h3
  set s := se.1 with hs
  set ms := m.2.1 with hms
  set me := m.2.2 with hme
  have hsentlen : ((text.drop s).take (se.2 - s)).length ≤ text.length - s := by
    simp only [List.length_take, List.length_drop]
    omega
  have hmele : me ≤ text.length - s := le_trans h3 hsentlen
  have hsle : s + me ≤ text.length := by omega
  refine ⟨by omega, by omega, by omega, ?_⟩
  have harith1 : ms + (s + offset) - offset = s + ms := by omega
  have harith2 : me + (s + offset) - (ms + (s + offset)) = me - ms := by omega
  simp only [harith1, harith2]
  have hslice : ((text.drop s).take (se.2 - s)).drop ms =
      (text.drop (s + ms)).take (se.2 - s - ms) := by
    rw [List.drop_take, List.drop_drop]
  have h5 : m.1 = (text.drop (s + ms)).take (me - ms) := by
    rw [h4]
    simp only [Nat.sub_zero, ← hms, ← hme]
    rw [hslice, List.take_take]
    congr 1
    have hmewidth : me ≤ se.2 - s := le_trans h3 (by simp only [List.length_take, List.length_drop]; omega)
    omega
  rw [h5]

theorem tokenize_corpus_spec (sentence_spans : List Char → List (Nat × Nat)) :
    ∀ (pieces : List (List Char)) (base : Nat),
      ∀ sent ∈ tokenize_corpus sentence_spans pieces base, ∀ tok ∈ sent,
        base ≤ tok.2.1 ∧ tok.2.1 < tok.2.2 ∧
        tok.2.2 ≤ base + pieces.flatten.length ∧
        normalize ((pieces.flatten.drop (tok.2.1 - base)).take (tok.2.2 - tok.2.1)) =
          tok.1 := by
  intro pieces
  induction pieces with
  | nil => intro base sent hsent; simp [tokenize_corpus] at hsent
  | cons span rest ih =>
    intro base sent hsent tok htok
    rw [tokenize_corpus] at hsent
    rcases List.mem_append.mp hsent with hin | hin
    · obtain ⟨h1, h2, h3, h4⟩ := split_sentences_spec span _ base sent hin tok htok
      have hd : tok.2.1 - base ≤ span.length := by omega
      refine ⟨h1, h2, ?_, ?_⟩
      · simp only [List.flatten_cons, List.length_append]
        omega
      · rw [List.flatten_cons, List.drop_append_of_le_length hd,
          List.take_append_of_le_length (by simp only [List.length_drop]; omega)]
        exact h4
    · obtain ⟨h1, h2, h3, h4⟩ := ih _ sent hin tok htok
      refine ⟨by omega, h2, ?_, ?_⟩
      · simp only [List.flatten_cons, List.length_append]
        omega
      · rw [List.flatten_cons]
        have hd : tok.2.1 - base = span.length + (tok.2.1 - (base + span.length)) := by
          omega
        rw [hd, List.drop_append]
        exact h4

/-- Claim C1: every `(token, (start, end))` pair produced by the
span-preserving tokenizer satisfies: lowercasing and stripping underscores
from the original document slice at `[start - offset, end - offset)` yields
exactly the normalized token text; and Variant B's `tokenize_corpus`, which
segments each quote-delimited partition with a running base offset equal to
the cumulative consumed text length, keeps all spans absolute into the
original document (the concatenation of the partition). -/
theorem tokenizer_span_fidelity :
    (∀ (text : List Char) (sentence_spans : List (Nat × Nat)) (offset : Nat),
      ∀ sent ∈ split_sentences text sentence_spans offset, ∀ tok ∈ sent,
        offset ≤ tok.2.1 ∧ tok.2.1 < tok.2.2 ∧ tok.2.2 ≤ offset + text.length ∧
        normalize ((text.drop (tok.2.1 - offset)).take
          ((tok.2.2 - offset) - (tok.2.1 - offset))) = tok.1) ∧
    (∀ (sentence_spans : List Char → List (Nat × Nat)) (data : List Char)
        (pieces : List (List Char)), pieces.flatten = data →
      ∀ sent ∈ tokenize_corpus sentence_spans pieces 0, ∀ tok ∈ sent,
        tok.2.1 < tok.2.2 ∧ tok.2.2 ≤ data.length ∧
        normalize ((data.drop tok.2.1).take (tok.2.2 - tok.2.1)) = tok.1) := by
  constructor
  · intro text sentence_spans offset sent hsent tok htok
    obtain ⟨h1, h2, h3, h4⟩ := split_sentences_spec text sentence_spans offset sent hsent tok htok
    refine ⟨h1, h2, h3, ?_⟩
    have : tok.2.2 - offset - (tok.2.1 - offset) = tok.2.2 - tok.2.1 := by omega
    rw [this]
    exact h4
  · intro sentence_spans data pieces hjoin sent hsent tok htok
    obtain ⟨_, h2, h3, h4⟩ := tokenize_corpus_spec sentence_spans pieces 0 sent hsent tok htok
    subst hjoin
    simp only [Nat.zero_add] at h3
    simp only [Nat.sub_zero] at h4
    exact ⟨h2, h3, h4⟩

/-- Witness for claim C1: both parts instantiated at a concrete document
`ab_C"d!"` split into the pieces `ab_C` and `"d!"`, each a single sentence. -/
theorem tokenizer_span_fidelity_witness :
    (∀ sent ∈ split_sentences ['a', 'b', '_', 'C', '!'] [(0, 5)] 2, ∀ tok ∈ sent,
      2 ≤ tok.2.1 ∧ tok.2.1 < tok.2.2 ∧ tok.2.2 ≤ 2 + 5 ∧
      normalize ((['a', 'b', '_', 'C', '!'].drop (tok.2.1 - 2)).take
        ((tok.2.2 - 2) - (tok.2.1 - 2))) = tok.1) ∧
    (∀ sent ∈ tokenize_corpus (fun p => [(0, p.length)])
        [['a', 'b', '_', 'C'], ['"', 'd', '!', '"']] 0, ∀ tok ∈ sent,
      tok.2.1 < tok.2.2 ∧
      tok.2.2 ≤ ['a', 'b', '_', 'C', '"', 'd', '!', '"'].length ∧
      normalize ((['a', 'b', '_', 'C', '"', 'd', '!', '"'].drop tok.2.1).take
        (tok.2.2 - tok.2.1)) = tok.1) :=
  ⟨fun sent hsent tok htok => by
      have h := tokenizer_span_fidelity.1 ['a', 'b', '_', 'C', '!'] [(0, 5)] 2 sent hsent tok htok
      simpa using h,
   fun sent hsent tok htok =>
      tokenizer_span_fidelity.2 (fun p => [(0, p.length)])
        ['a', 'b', '_', 'C', '"', 'd', '!', '"']
        [['a', 'b', '_', 'C'], ['"', 'd', '!', '"']] rfl sent hsent tok htok⟩

/-! ## Boundary-following strategy (`QuotePoint`, fset_manager.py:212-276) -/

/-- `TaggedToken` (fset_manager.py:22): `(token, tag, start, end)`. The
Python `end` field is `endp` here (`end` is a Lean keyword). -/
structure TaggedToken where
  token : List Char
  tag : List Char
  start : Nat
  endp : Nat
deriving DecidableEq, Inhabited, Repr

/-- `FeatureContext` (fset_manager.py:20-21): `(history, current, lookahead)`. -/
structure FeatureContext where
  history : List TaggedToken
  current : TaggedToken
  lookahead : TaggedToken
deriving DecidableEq, Inhabited, Repr

/-- `tagged_token` (fset_manager.py:25-29): turns `((TOKEN, TAG), (START, END))`
into a `TaggedToken`. -/
def tagged_token (token_span : (List Char × List Char) × (Nat × Nat)) : TaggedToken :=
  ⟨token_span.1.1, token_span.1.2, token_span.2.1, token_span.2.2⟩

/-- Python's negative-stop slice `lst[:-n]`: the first `length - n` items for
`n ≥ 1`, and the empty list for `n = 0` (since `lst[:-0]` is `lst[:0]`). -/
def pySliceToNeg {α : Type*} (l : List α) (n : Nat) : List α :=
  if n = 0 then [] else l.take (l.length - n)

namespace QuotePoint

/-- `QuotePoint.make_context` (fset_manager.py:225-230): history is
`window[:-history_size]`, current is `window[-2]`, lookahead is `window[-1]`.
Only called on windows of length at least 2, so the out-of-range default
never surfaces. -/
def make_context (history_size : Nat)
    (window : List ((List Char × List Char) × (Nat × Nat))) : FeatureContext :=
  { history := (pySliceToNeg window history_size).map tagged_token
    current := tagged_token (window.getD (window.length - 2) default)
    lookahead := tagged_token (window.getD (window.length - 1) default) }

/-- `QuotePoint.get_features` (fset_manager.py:232-242): `token0`/`tag0` from
the current token, then `token{i+1}`/`tag{i+1}` for the reversed history. -/
def get_features (context : FeatureContext) : List (String × List Char) :=
  [("token0", context.current.token), ("tag0", context.current.tag)] ++
    (context.history.reverse.enum.map (fun p =>
      [("token" ++ toString (p.1 + 1), p.2.token),
       ("tag" ++ toString (p.1 + 1), p.2.tag)])).flatten

/-- `QuotePoint.get_tag` (fset_manager.py:244-245): the label is
`is_context(context)`. -/
def get_tag (is_context : FeatureContext → Bool)
    (_features : List (String × List Char)) (context : FeatureContext) : Bool :=
  is_context context

/-- `QuotePoint.get_training_features` (fset_manager.py:249-265): slides a
window of `history_size + 2` over the sentence, silently skips windows
shorter than 2, filters by `is_target`, and yields
`(features, current-token span, is_context label)`. -/
def get_training_features (is_context is_target : FeatureContext → Bool)
    (history_size : Nat)
    (tagged_tokens : List ((List Char × List Char) × (Nat × Nat))) :
    List ((List (String × List Char)) × (Nat × Nat) × Bool) :=
  (windows tagged_tokens (history_size + 2)).filterMap (fun window =>
    if window.length < 2 then none
    else
      let context := make_context history_size window
      if is_target context then
        let features := get_features context
        let span := (context.current.start, context.current.endp)
        let tag := get_tag is_context features context
        some (features, span, tag)
      else none)

end QuotePoint

theorem countP_add_countP_not {α : Type*} (q : α → Bool) :
    ∀ l : List α, l.countP q + l.countP (fun a => !q a) = l.length := by
  intro l
  induction l with
  | nil => rfl
  | cons a t ih =>
    rw [List.countP_cons, List.countP_cons, List.length_cons]
    by_cases h : q a = true
    · simp only [h, Bool.not_true, if_pos, if_neg Bool.false_ne_true]
      omega
    · have hf : q a = false := Bool.eq_false_iff.mpr h
      simp only [hf, Bool.not_false, if_pos, if_neg Bool.false_ne_true]
      omega

theorem filterMap_skip_filter {α β : Type*} (small : α → Prop) [DecidablePred small]
    (keep : α → Bool) (g : α → β) :
    ∀ l : List α,
      l.filterMap (fun a => if small a then none else if keep a then some (g a) else none) =
      (l.filter (fun a => decide (¬ small a) && keep a)).map g := by
  intro l
  induction l with
  | nil => rfl
  | cons a t ih =>
    rw [List.filterMap_cons, List.filter_cons]
    by_cases hs : small a
    · simp [hs, ih]
    · by_cases hk : keep a
      · simp [hs, hk, ih]
      · simp [hs, hk, ih]

/-- Claim C3: the boundary strategy emits a training example for a window if
and only if the window has at least 2 tokens and `is_target` accepts its
context; every emitted example's features come from that context, its label
equals `is_context(context)`, and its span is exactly the current token's
`(start, end)`; shorter windows are silently dropped, never errors. -/
theorem quote_point_training_spec (is_context is_target : FeatureContext → Bool)
    (history_size : Nat)
    (tagged_tokens : List ((List Char × List Char) × (Nat × Nat))) :
    QuotePoint.get_training_features is_context is_target history_size tagged_tokens =
      ((windows tagged_tokens (history_size + 2)).filter
          (fun w => decide (2 ≤ w.length) &&
            is_target (QuotePoint.make_context history_size w))).map
        (fun w =>
          (QuotePoint.get_features (QuotePoint.make_context history_size w),
           ((QuotePoint.make_context history_size w).current.start,
            (QuotePoint.make_context history_size w).current.endp),
           is_context (QuotePoint.make_context history_size w))) := by
  rw [QuotePoint.get_training_features]
  refine Eq.trans (filterMap_skip_filter
    (fun w : List ((List Char × List Char) × (Nat × Nat)) => w.length < 2)
    (fun w => is_target (QuotePoint.make_context history_size w))
    (fun w =>
      (QuotePoint.get_features (QuotePoint.make_context history_size w),
       ((QuotePoint.make_context history_size w).current.start,
        (QuotePoint.make_context history_size w).current.endp),
       is_context (QuotePoint.make_context history_size w)))
    (windows tagged_tokens (history_size + 2))) ?_
  congr 1
  apply List.filter_congr
  intro a _
  have : (¬ a.length < 2) ↔ (2 ≤ a.length) := by omega
  rw [decide_eq_decide.mpr this]

/-- Witness for claim C3 at a concrete two-token sentence with constant
predicates. -/
theorem quote_point_training_spec_witness :
    QuotePoint.get_training_features (fun _ => true) (fun _ => true) 2
        [((['h', 'i'], ['N']), (0, 2)), ((['.'], ['.']), (2, 3))] =
      ((windows [((['h', 'i'], ['N']), (0, 2)), ((['.'], ['.']), (2, 3))] (2 + 2)).filter
          (fun w => decide (2 ≤ w.length) &&
            (fun _ => true) (QuotePoint.make_context 2 w))).map
        (fun w =>
          (QuotePoint.get_features (QuotePoint.make_context 2 w),
           ((QuotePoint.make_context 2 w).current.start,
            (QuotePoint.make_context 2 w).current.endp),
           (fun _ => true) (QuotePoint.make_context 2 w))) :=
  quote_point_training_spec (fun _ => true) (fun _ => true) 2
    [((['h', 'i'], ['N']), (0, 2)), ((['.'], ['.']), (2, 3))]

/-- Counterexample to claim C4 as stated: with history depth `h = 1` and the
three-token window `[a, b, c]` (window size `h + 2`), the context's history
is `window[:-1] = [a, b]`, which has 2 entries — not "the tokens preceding
current and lookahead, truncated to at most `h = 1` entries" (that would be
`[a]`). -/
theorem make_context_history_not_truncated :
    ¬ ((QuotePoint.make_context 1
        [((['a'], ['A']), (0, 1)), ((['b'], ['B']), (1, 2)),
         ((['c'], ['C']), (2, 3))]).history.length ≤ 1) := by
  decide

/-- Claim C4, amended: for a window of at least 2 tokens, `make_context`
takes the window's last two tokens as `current` and `lookahead`, and its
history is the window with its last `history_size` tokens removed
(`window[:-history_size]`, here for `history_size ≥ 1` the first
`window length - history_size` tokens) — which equals the tokens preceding
`current`/`lookahead` only when `history_size = 2`. -/
theorem make_context_spec (history_size : Nat) (hh : 1 ≤ history_size)
    (w : List ((List Char × List Char) × (Nat × Nat)))
    (a b : (List Char × List Char) × (Nat × Nat)) :
    QuotePoint.make_context history_size (w ++ [a, b]) =
      { history := ((w ++ [a, b]).take ((w ++ [a, b]).length - history_size)).map
          tagged_token
        current := tagged_token a
        lookahead := tagged_token b } := by
  rw [QuotePoint.make_context, pySliceToNeg, if_neg (by omega)]
  have hlen : (w ++ [a, b]).length = w.length + 2 := by simp
  congr 1
  · rw [hlen]
    have h2 : w.length + 2 - 2 = w.length := by omega
    rw [h2, List.getD_eq_getElem?_getD, List.getElem?_append_right (by omega)]
    simp
  · rw [hlen]
    have h1 : w.length + 2 - 1 = w.length + 1 := by omega
    rw [h1, List.getD_eq_getElem?_getD, List.getElem?_append_right (by omega)]
    simp

/-- Witness for the amended claim C4 at `history_size = 2` and a concrete
three-token window. -/
theorem make_context_spec_witness :
    QuotePoint.make_context 2
        [((['a'], ['A']), (0, 1)), ((['b'], ['B']), (1, 2)),
         ((['c'], ['C']), (2, 3))] =
      { history := [⟨['a'], ['A'], 0, 1⟩]
        current := ⟨['b'], ['B'], 1, 2⟩
        lookahead := ⟨['c'], ['C'], 2, 3⟩ } :=
  (make_context_spec 2 (by decide)
      [((['a'], ['A']), (0, 1))] ((['b'], ['B']), (1, 2)) ((['c'], ['C']), (2, 3))).trans
    (by decide)

/-! ## Whole-span strategy (`InternalStyle`, fset_manager.py:279-356).
`InternalStyle` is also configured with an `is_word` predicate, but neither
`get_training_features` nor `get_all_training_features` reads it, so it is
not a parameter here. -/

namespace InternalStyle

/-- The feature key `'{}/{}'.format(*token_tag)`. -/
def fmtTokenTag (token_tag : String × String) : String :=
  token_tag.1 ++ "/" ++ token_tag.2

/-- `feature_set[key] = True` on a Python dict whose values are always
`True`: the insertion-ordered key list gains `key` if absent. -/
def insertKey (feature_set : List String) (key : String) : List String :=
  if key ∈ feature_set then feature_set else feature_set ++ [key]

/-- The loop of `InternalStyle.get_training_features` (fset_manager.py:320-333)
threading the mutable `feature_set`, `spans` and `tag`: each token's
`is_quote` value is or-ed into `tag`; `is_quote` tokens are then skipped;
other tokens contribute their `token/tag` key and their span. -/
def trainGo (is_quote : String × String → Bool) :
    List ((String × String) × (Nat × Nat)) → List String → List (Nat × Nat) → Bool →
    List String × List (Nat × Nat) × Bool
  | [], feature_set, spans, tag => (feature_set, spans, tag)
  | (token_tag, span) :: rest, feature_set, spans, tag =>
    let tag2 := tag || is_quote token_tag
    if is_quote token_tag then
      trainGo is_quote rest feature_set spans tag2
    else
      trainGo is_quote rest (insertKey feature_set (fmtTokenTag token_tag))
        (spans ++ [span]) tag2

/-- `InternalStyle.get_training_features` (fset_manager.py:312-335): one
`(feature_set, spans, tag)` triple per sentence, starting from empty
accumulators and a `False` tag. -/
def get_training_features (is_quote : String × String → Bool)
    (tagged_tokens : List ((String × String) × (Nat × Nat))) :
    List String × List (Nat × Nat) × Bool :=
  trainGo is_quote tagged_tokens [] [] false

/-- `InternalStyle.get_all_training_features` (fset_manager.py:348-356):
appends each sentence's single triple to the result list. -/
def get_all_training_features (is_quote : String × String → Bool)
    (tagged_tokens : List (List ((String × String) × (Nat × Nat)))) :
    List (List String × List (Nat × Nat) × Bool) :=
  tagged_tokens.foldl (fun features sent => features ++ [get_training_features is_quote sent]) []

theorem trainGo_spec (is_quote : String × String → Bool) :
    ∀ (toks : List ((String × String) × (Nat × Nat)))
      (feature_set : List String) (spans : List (Nat × Nat)) (tag : Bool),
      (trainGo is_quote toks feature_set spans tag).2.1 =
        spans ++ (toks.filter (fun p => !is_quote p.1)).map Prod.snd ∧
      (trainGo is_quote toks feature_set spans tag).2.2 =
        (tag || toks.any (fun p => is_quote p.1)) ∧
      (∀ key ∈ (trainGo is_quote toks feature_set spans tag).1,
        key ∈ feature_set ∨
          ∃ p ∈ toks, is_quote p.1 = false ∧ key = fmtTokenTag p.1) := by
  intro toks
  induction toks with
  | nil => intro fs spans tag; simp [trainGo]
  | cons hd rest ih =>
    intro fs spans tag
    obtain ⟨token_tag, span⟩ := hd
    simp only [trainGo]
    by_cases hq : is_quote token_tag = true
    · rw [if_pos hq]
      obtain ⟨ih1, ih2, ih3⟩ := ih fs spans (tag || is_quote token_tag)
      refine ⟨?_, ?_, ?_⟩
      · rw [ih1, List.filter_cons]
        simp [hq]
      · rw [ih2, List.any_cons]
        simp [hq, Bool.or_assoc]
      · intro key hkey
        rcases ih3 key hkey with h | ⟨p, hp, hqp, hk⟩
        · exact Or.inl h
        · exact Or.inr ⟨p, List.mem_cons_of_mem _ hp, hqp, hk⟩
    · have hqf : is_quote token_tag = false := Bool.eq_false_iff.mpr hq
      rw [if_neg hq]
      obtain ⟨ih1, ih2, ih3⟩ :=
        ih (insertKey fs (fmtTokenTag token_tag)) (spans ++ [span])
          (tag || is_quote token_tag)
      refine ⟨?_, ?_, ?_⟩
      · rw [ih1, List.filter_cons]
        simp [hqf]
      · rw [ih2, List.any_cons]
        simp [hqf, Bool.or_assoc]
      · intro key hkey
        rcases ih3 key hkey with h | ⟨p, hp, hqp, hk⟩
        · rw [insertKey] at h
          by_cases hmem : fmtTokenTag token_tag ∈ fs
          · exact Or.inl (by rwa [if_pos hmem] at h)
          · rw [if_neg hmem, List.mem_append, List.mem_singleton] at h
            rcases h with h | h
            · exact Or.inl h
            · exact Or.inr ⟨(token_tag, span), List.mem_cons_self _ _, hqf, h⟩
        · exact Or.inr ⟨p, List.mem_cons_of_mem _ hp, hqp, hk⟩

/-- Claim C5: for every sentence and every `is_quote` predicate, the emitted
feature set contains only keys derived from tokens for which `is_quote` was
false (so nothing from a delimiter token), the emitted span list is exactly
the spans of the non-delimiter tokens in order, and its length is the
sentence's token count minus the number of `is_quote`-true tokens. -/
theorem internal_style_exclusion (is_quote : String × String → Bool)
    (tagged_tokens : List ((String × String) × (Nat × Nat))) :
    (∀ key ∈ (get_training_features is_quote tagged_tokens).1,
      ∃ p ∈ tagged_tokens, is_quote p.1 = false ∧ key = fmtTokenTag p.1) ∧
    (get_training_features is_quote tagged_tokens).2.1 =
      (tagged_tokens.filter (fun p => !is_quote p.1)).map Prod.snd ∧
    (get_training_features is_quote tagged_tokens).2.1.length =
      tagged_tokens.length - tagged_tokens.countP (fun p => is_quote p.1) := by
  obtain ⟨h1, _, h3⟩ := trainGo_spec is_quote tagged_tokens [] [] false
  refine ⟨?_, ?_, ?_⟩
  · intro key hkey
    rcases h3 key hkey with h | h
    · simp at h
    · exact h
  · simpa [get_training_features] using h1
  · have h2 : (get_training_features is_quote tagged_tokens).2.1 =
        (tagged_tokens.filter (fun p => !is_quote p.1)).map Prod.snd := by
      simpa [get_training_features] using h1
    rw [h2, List.length_map, ← List.countP_eq_length_filter]
    have hsum := countP_add_countP_not
      (fun p : (String × String) × (Nat × Nat) => is_quote p.1) tagged_tokens
    simp only [] at hsum
    omega

/-- Witness for claim C5 at a concrete sentence `"hi" said x` with `is_quote`
matching the `"`-tagged tokens. -/
theorem internal_style_exclusion_witness :
    (∀ key ∈ (get_training_features (fun tt => tt.1 == "\"")
        [(("\"", "\""), (0, 1)), (("hi", "NN"), (1, 3)), (("\"", "\""), (3, 4)),
         (("said", "VBD"), (5, 9)), (("x", "NN"), (10, 11))]).1,
      ∃ p ∈ [(("\"", "\""), (0, 1)), (("hi", "NN"), (1, 3)), (("\"", "\""), (3, 4)),
         (("said", "VBD"), (5, 9)), (("x", "NN"), (10, 11))],
        (fun tt : String × String => tt.1 == "\"") p.1 = false ∧ key = fmtTokenTag p.1) ∧
    (get_training_features (fun tt => tt.1 == "\"")
        [(("\"", "\""), (0, 1)), (("hi", "NN"), (1, 3)), (("\"", "\""), (3, 4)),
         (("said", "VBD"), (5, 9)), (("x", "NN"), (10, 11))]).2.1 =
      ([(("\"", "\""), (0, 1)), (("hi", "NN"), (1, 3)), (("\"", "\""), (3, 4)),
         (("said", "VBD"), (5, 9)), (("x", "NN"), (10, 11))].filter
          (fun p => !(fun tt : String × String => tt.1 == "\"") p.1)).map Prod.snd ∧
    (get_training_features (fun tt => tt.1 == "\"")
        [(("\"", "\""), (0, 1)), (("hi", "NN"), (1, 3)), (("\"", "\""), (3, 4)),
         (("said", "VBD"), (5, 9)), (("x", "NN"), (10, 11))]).2.1.length =
      5 - [(("\"", "\""), (0, 1)), (("hi", "NN"), (1, 3)), (("\"", "\""), (3, 4)),
         (("said", "VBD"), (5, 9)), (("x", "NN"), (10, 11))].countP
          (fun p => (fun tt : String × String => tt.1 == "\"") p.1) :=
  internal_style_exclusion (fun tt => tt.1 == "\"")
    [(("\"", "\""), (0, 1)), (("hi", "NN"), (1, 3)), (("\"", "\""), (3, 4)),
     (("said", "VBD"), (5, 9)), (("x", "NN"), (10, 11))]

/-- Claim C6: the whole-span label is positive iff some token of the same
sentence satisfies `is_quote`; `get_all_training_features` maps each
sentence independently to exactly one `(features, spans, label)` triple, so
tokens of other sentences never influence a sentence's label. -/
theorem internal_style_label_spec (is_quote : String × String → Bool)
    (sentences : List (List ((String × String) × (Nat × Nat)))) :
    get_all_training_features is_quote sentences =
      sentences.map (get_training_features is_quote) ∧
    (get_all_training_features is_quote sentences).length = sentences.length ∧
    (∀ sent : List ((String × String) × (Nat × Nat)),
      ((get_training_features is_quote sent).2.2 = true ↔
        ∃ p ∈ sent, is_quote p.1 = true)) := by
  have hmap : ∀ (l : List (List ((String × String) × (Nat × Nat))))
      (acc : List (List String × List (Nat × Nat) × Bool)),
      l.foldl (fun features sent => features ++ [get_training_features is_quote sent])
        acc = acc ++ l.map (get_training_features is_quote) := by
    intro l
    induction l with
    | nil => intro acc; simp
    | cons s t ih =>
      intro acc
      rw [List.foldl_cons, ih]
      simp
  have h1 : get_all_training_features is_quote sentences =
      sentences.map (get_training_features is_quote) := by
    rw [get_all_training_features, hmap]
    simp
  refine ⟨h1, by rw [h1, List.length_map], ?_⟩
  intro sent
  obtain ⟨_, h2, _⟩ := trainGo_spec is_quote sent [] [] false
  rw [get_training_features, h2]
  simp [List.any_eq_true]

/-- Witness for claim C6 at a two-sentence corpus where only the second
sentence contains a quote delimiter. -/
theorem internal_style_label_spec_witness :
    get_all_training_features (fun tt => tt.1 == "\"")
        [[(("a", "NN"), (0, 1))], [(("\"", "\""), (2, 3))]] =
      [[(("a", "NN"), (0, 1))], [(("\"", "\""), (2, 3))]].map
        (get_training_features (fun tt => tt.1 == "\"")) ∧
    (get_all_training_features (fun tt => tt.1 == "\"")
        [[(("a", "NN"), (0, 1))], [(("\"", "\""), (2, 3))]]).length = 2 ∧
    (∀ sent : List ((String × String) × (Nat × Nat)),
      ((get_training_features (fun tt => tt.1 == "\"") sent).2.2 = true ↔
        ∃ p ∈ sent, (fun tt : String × String => tt.1 == "\"") p.1 = true)) :=
  internal_style_label_spec (fun tt => tt.1 == "\"")
    [[(("a", "NN"), (0, 1))], [(("\"", "\""), (2, 3))]]

end InternalStyle

/-! ## Backoff tagger builder (`build_trainer`, fset_manager.py:72-107).
The nltk tagger classes (`DefaultTagger`, `RegexpTagger`, `UnigramTagger`,
`BigramTagger`) are an external library. Their backoff semantics are
modelled from the spec (§4.2): each stage answers `some tag` when it can and
defers to the next stage on `none`; the terminal default-tag stage is total.
A sequential tagger maps each token of the input to exactly one tag, passing
the tags assigned so far as the history. -/

/-- A backoff chain: either the terminal default-tag stage, or a stage whose
`choose` function (given the token list, the current index and the history
of already-assigned tags) may answer or defer to its backoff. -/
inductive Tagger where
  | dflt (tag : String)
  | stage (choose : List String → Nat → List String → Option String) (backoff : Tagger)

/-- The answer of a chain for one token: the first stage that answers wins;
the terminal stage always answers its default tag. -/
def Tagger.choose : Tagger → List String → Nat → List String → Option String
  | .dflt t, _, _, _ => some t
  | .stage c b, toks, i, hist =>
    match c toks i hist with
    | some t => some t
    | none => Tagger.choose b toks i hist

/-- The sequential tagging loop over the remaining tokens, threading the
history of tags assigned so far (the current index is the history's length). -/
def Tagger.tagAux (tg : Tagger) (toks : List String) :
    List String → List String → List (String × String)
  | [], _ => []
  | t :: rest, hist =>
    let tag := (tg.choose toks hist.length hist).getD ""
    (t, tag) :: Tagger.tagAux tg toks rest (hist ++ [tag])

/-- `Tagger.tag(tokens) -> [(token, tag)]`. -/
def Tagger.tag (tg : Tagger) (toks : List String) : List (String × String) :=
  tg.tagAux toks toks []

/-- Modelled from the spec: the unigram frequency stage's learned table
answers the most frequent tag of the token over the training corpus (first
seen wins ties), `none` for a token absent from the corpus. -/
def mostFrequent : List String → Option String
  | [] => none
  | t :: ts =>
    some ((t :: ts).foldl
      (fun best x => if (t :: ts).count best < (t :: ts).count x then x else best) t)

/-- The unigram table lookup over a tagged training corpus. -/
def unigramLookup (train : List (List (String × String))) (w : String) :
    Option String :=
  mostFrequent ((train.flatten.filter (fun p => p.1 == w)).map Prod.snd)

/-- Modelled from the spec: `nltk.UnigramTagger(train, backoff=...)` as a
stage function — answer from the unigram table for the current token. -/
def unigramChoose (train : List (List (String × String)))
    (toks : List String) (i : Nat) (_hist : List String) : Option String :=
  unigramLookup train (toks.getD i "")

/-- Modelled from the spec: the bigram training contexts, each pairing the
preceding tag (`none` at sentence start) and the token with its tag. -/
def bigramContexts (train : List (List (String × String))) :
    List ((Option String × String) × String) :=
  (train.map (fun sent =>
    sent.enum.map (fun p =>
      ((if p.1 = 0 then none else some ((sent.getD (p.1 - 1) ("", "")).2), p.2.1),
       p.2.2)))).flatten

/-- Modelled from the spec: `nltk.BigramTagger(train, backoff=...)` as a
stage function — the preceding assigned tag is additional context. -/
def bigramChoose (train : List (List (String × String)))
    (toks : List String) (i : Nat) (hist : List String) : Option String :=
  let prev : Option String := if i = 0 then none else some (hist.getD (i - 1) "")
  mostFrequent
    (((bigramContexts train).filter (fun e => e.1 == (prev, toks.getD i ""))).map
      Prod.snd)

/-- The pattern list of the regexp stage (fset_manager.py:80-93), evaluated
top-to-bottom, first match wins. `.*X$` is an ends-with check; the final
catch-all `.*` matches every token. -/
def endsWithCh (w suffix : String) : Bool := suffix.data.isSuffixOf w.data

/-- The cardinal-number pattern `^-?[0-9]+(.[0-9]+)?$` (the unescaped `.`
matches any single character other than a newline, as in the source regex). -/
def matchesCardinal (w : String) : Bool :=
  let l := if w.data.head? == some '-' then w.data.tail else w.data
  let d1 := l.takeWhile Char.isDigit
  let r := l.dropWhile Char.isDigit
  !d1.isEmpty &&
    (r.isEmpty ||
      (match r with
       | [] => false
       | c :: r2 => !(c == '\n') && !r2.isEmpty && r2.all Char.isDigit))

/-- The ordered `(pattern, tag)` rules of `build_trainer`'s regexp stage:
gerunds, simple past, 3rd singular present, modals, possessive nouns, plural
nouns, cardinal numbers, adverbs, and the catch-all noun rule. -/
def patterns : List ((String → Bool) × String) :=
  [(fun w => endsWithCh w "ing", "VBG"),
   (fun w => endsWithCh w "ed", "VBD"),
   (fun w => endsWithCh w "es", "VBZ"),
   (fun w => endsWithCh w "ould", "MD"),
   (fun w => endsWithCh w "\'s", "NN$"),
   (fun w => endsWithCh w "s", "NNS"),
   (fun w => matchesCardinal w, "CD"),
   (fun w => endsWithCh w "ly", "RB"),
   (fun _ => true, "NN")]

/-- First matching rule wins. -/
def firstMatch : List ((String → Bool) × String) → String → Option String
  | [], _ => none
  | pt :: rest, w => if pt.1 w then some pt.2 else firstMatch rest w

/-- Modelled from the spec: `nltk.RegexpTagger(patterns, backoff=...)` as a
stage function. -/
def regexpChoose (toks : List String) (i : Nat) (_hist : List String) :
    Option String :=
  firstMatch patterns (toks.getD i "")

/-- `build_trainer(tagged_sents, default_tag)` (fset_manager.py:72-107): the
chain, queried top first, is names → bigram → unigram → punctuation →
regexp patterns → default tag. The nltk `names` gazetteer is external and is
the parameter `gaz`; `name_tagger` tags every lower-cased name `PN`. -/
def build_trainer (gaz : List String) (tagged_sents : List (List (String × String)))
    (default_tag : String) : Tagger :=
  let name_tagger := [gaz.map (fun n => (n.toLower, "PN"))]
  let punctuation_tags : List (List (String × String)) := [[("^", "^"), ("\"", "\"")]]
  let tagger0 := Tagger.dflt default_tag
  let regexp_tagger := Tagger.stage regexpChoose tagger0
  let punctuation_tagger := Tagger.stage (unigramChoose punctuation_tags) regexp_tagger
  let tagger1 := Tagger.stage (unigramChoose tagged_sents) punctuation_tagger
  let tagger2 := Tagger.stage (bigramChoose tagged_sents) tagger1
  let tagger3 := Tagger.stage (unigramChoose name_tagger) tagger2
  tagger3

theorem Tagger.choose_isSome (tg : Tagger) :
    ∀ (toks : List String) (i : Nat) (hist : List String),
      (tg.choose toks i hist).isSome = true := by
  induction tg with
  | dflt t => intro toks i hist; rfl
  | stage c b ih =>
    intro toks i hist
    rw [Tagger.choose]
    cases h : c toks i hist with
    | some t => rfl
    | none => exact ih toks i hist

theorem Tagger.tagAux_map_fst (tg : Tagger) (toks : List String) :
    ∀ (rem hist : List String), (tg.tagAux toks rem hist).map Prod.fst = rem := by
  intro rem
  induction rem with
  | nil => intro hist; rfl
  | cons t rest ih =>
    intro hist
    rw [Tagger.tagAux, List.map_cons, ih]

/-- Claim C7: for every gazetteer, training corpus, default tag and token
list, the chain built by `build_trainer` assigns exactly one tag per input
token, in order; and its `choose` never declines (never `None`/unknown),
because the chain bottoms out in the total default-tag stage — so the
totality holds even for tokens absent from every training corpus. -/
theorem build_trainer_total (gaz : List String)
    (tagged_sents : List (List (String × String))) (default_tag : String)
    (toks : List String) :
    ((build_trainer gaz tagged_sents default_tag).tag toks).map Prod.fst = toks ∧
    ((build_trainer gaz tagged_sents default_tag).tag toks).length = toks.length ∧
    (∀ (ts : List String) (i : Nat) (hist : List String),
      ((build_trainer gaz tagged_sents default_tag).choose ts i hist).isSome = true) := by
  refine ⟨Tagger.tagAux_map_fst _ toks toks [], ?_, fun ts i hist => Tagger.choose_isSome _ ts i hist⟩
  have h := Tagger.tagAux_map_fst (build_trainer gaz tagged_sents default_tag) toks toks []
  calc ((build_trainer gaz tagged_sents default_tag).tag toks).length
      = (((build_trainer gaz tagged_sents default_tag).tag toks).map Prod.fst).length := by
        rw [List.length_map]
    _ = toks.length := by rw [Tagger.tag, h]

/-- Claim C8: with a reference corpus containing only `running` tagged `VBG`,
a token `jumping` absent from that corpus and from the name gazetteer is
still tagged `VBG` by the pattern stage's gerund rule (patterns evaluated
top-to-bottom, first match wins), independent of frequency-stage training. -/
theorem gerund_pattern_tags_vbg (gaz : List String) (default_tag : String)
    (hgaz : "jumping" ∉ gaz.map String.toLower) :
    (build_trainer gaz [[("running", "VBG")]] default_tag).tag ["jumping"] =
      [("jumping", "VBG")] := by
  have hname : unigramChoose [gaz.map (fun n => (n.toLower, "PN"))] ["jumping"] 0 [] =
      none := by
    have hfil : ((([gaz.map (fun n => (n.toLower, "PN"))]).flatten).filter
        (fun p => p.1 == "jumping")) = [] := by
      rw [List.filter_eq_nil_iff]
      intro p hp
      simp only [List.flatten, List.append_nil, List.mem_map] at hp
      obtain ⟨n, hn, hpn⟩ := hp
      subst hpn
      simp only [beq_iff_eq]
      intro hc
      exact hgaz (List.mem_map.mpr ⟨n, hn, hc⟩)
    rw [unigramChoose, unigramLookup]
    have hg : (["jumping"] : List String).getD 0 "" = "jumping" := rfl
    rw [hg, hfil]
    rfl
  rw [build_trainer, Tagger.tag, Tagger.tagAux]
  simp only [List.length_nil]
  rw [Tagger.choose, hname]
  have hrest : (Tagger.stage (bigramChoose [[("running", "VBG")]])
      (Tagger.stage (unigramChoose [[("running", "VBG")]])
        (Tagger.stage (unigramChoose [[("^", "^"), ("\"", "\"")]])
          (Tagger.stage regexpChoose (Tagger.dflt default_tag))))).choose
      ["jumping"] 0 [] = some "VBG" := by
    rfl
  rw [hrest]
  rfl

/-- Witness for claim C8 with the empty gazetteer. -/
theorem gerund_pattern_tags_vbg_witness :
    ("jumping" ∉ ([] : List String).map String.toLower) ∧
    (build_trainer [] [[("running", "VBG")]] "DEFAULT").tag ["jumping"] =
      [("jumping", "VBG")] :=
  ⟨by simp, gerund_pattern_tags_vbg [] "DEFAULT" (by simp)⟩

/-! ## Vector-space bookkeeping (`VectorSpace`, punctuated_spaces.py:167-233).
The Python dicts `by_index`/`by_token` are insertion-ordered association
lists; the mutating `get_index` becomes state passing, and `vectorize`'s
`raise` becomes `Except.error`. -/

/-- `VectorSpace.__init__` state: `by_index` and `by_token`. -/
structure VectorSpace where
  by_index : List (Nat × String)
  by_token : List (String × Nat)
deriving DecidableEq, Repr

/-- `self.by_token[token]` with `KeyError` as `none`. -/
def lookupToken (by_token : List (String × Nat)) (token : String) : Option Nat :=
  (by_token.find? (fun p => p.1 == token)).map Prod.snd

/-- `VectorSpace.get_index` (punctuated_spaces.py:182-190): answer the stored
index, or assign the fresh index `len(by_token)` and record it in both
tables. -/
def VectorSpace.get_index (vs : VectorSpace) (token : String) : Nat × VectorSpace :=
  match lookupToken vs.by_token token with
  | some i => (i, vs)
  | none =>
    let i := vs.by_token.length
    (i, { by_token := vs.by_token ++ [(token, i)],
          by_index := vs.by_index ++ [(i, token)] })

/-- The loop of `VectorSpace.vectorize` (punctuated_spaces.py:200-213): for
each token, increment slot `i` if `i < len(v)`, append a new slot if
`i == len(v)`, otherwise raise. -/
def VectorSpace.vectorizeGo (vs : VectorSpace) (toks : List String) (v : List Nat) :
    Except String (List Nat × VectorSpace) :=
  match toks with
  | [] => .ok (v, vs)
  | token :: rest =>
    let i := (vs.get_index token).1
    let vs2 := (vs.get_index token).2
    if i < v.length then
      vs2.vectorizeGo rest (v.set i (v.getD i 0 + 1))
    else if i = v.length then
      vs2.vectorizeGo rest (v ++ [1])
    else
      .error ("Invalid index " ++ toString i ++ " (len = " ++ toString v.length ++ ")")

/-- `VectorSpace.vectorize` (punctuated_spaces.py:200-213): the count vector
starts as `[0] * len(self.by_token)`. -/
def VectorSpace.vectorize (vs : VectorSpace) (toks : List String) :
    Except String (List Nat × VectorSpace) :=
  vs.vectorizeGo toks (List.replicate vs.by_token.length 0)

/-- Claim C9: at each step of `vectorize`, an assigned index strictly greater
than the current vector length aborts loudly with the `Invalid index`
exception (never a silent truncation); an index equal to the length appends
a fresh slot holding 1; a smaller index increments the existing slot. -/
theorem vectorize_branch_spec (vs : VectorSpace) (token : String)
    (rest : List String) (v : List Nat) :
    (v.length < (vs.get_index token).1 →
      vs.vectorizeGo (token :: rest) v =
        .error ("Invalid index " ++ toString (vs.get_index token).1 ++
          " (len = " ++ toString v.length ++ ")")) ∧
    ((vs.get_index token).1 = v.length →
      vs.vectorizeGo (token :: rest) v =
        (vs.get_index token).2.vectorizeGo rest (v ++ [1])) ∧
    ((vs.get_index token).1 < v.length →
      vs.vectorizeGo (token :: rest) v =
        (vs.get_index token).2.vectorizeGo rest
          (v.set (vs.get_index token).1 (v.getD (vs.get_index token).1 0 + 1))) := by
  refine ⟨fun hgt => ?_, fun heq => ?_, fun hlt => ?_⟩
  · rw [VectorSpace.vectorizeGo]
    rw [if_neg (by omega), if_neg (by omega)]
  · rw [VectorSpace.vectorizeGo]
    rw [if_neg (by omega), if_pos heq]
  · rw [VectorSpace.vectorizeGo]
    rw [if_pos hlt]

/-- Witness for claim C9: the corrupted state `{a: 5}` with vector `[0]`
raises; the fresh and the populated state take the append and increment
branches. -/
theorem vectorize_branch_spec_witness :
    (VectorSpace.mk [(5, "a")] [("a", 5)]).vectorizeGo ["a"] [0] =
      .error "Invalid index 5 (len = 1)" ∧
    (VectorSpace.mk [] []).vectorizeGo ["a"] [] =
      ((VectorSpace.mk [] []).get_index "a").2.vectorizeGo [] ([] ++ [1]) ∧
    (VectorSpace.mk [(0, "a")] [("a", 0)]).vectorizeGo ["a"] [2] =
      ((VectorSpace.mk [(0, "a")] [("a", 0)]).get_index "a").2.vectorizeGo []
        ([2].set 0 ([2].getD 0 0 + 1)) := by
  refine ⟨?_, ?_, ?_⟩
  · exact ((vectorize_branch_spec (VectorSpace.mk [(5, "a")] [("a", 5)]) "a" [] [0]).1
      (by decide)).trans (by rfl)
  · exact (vectorize_branch_spec (VectorSpace.mk [] []) "a" [] []).2.1 (by decide)
  · exact (vectorize_branch_spec (VectorSpace.mk [(0, "a")] [("a", 0)]) "a" [] [2]).2.2
      (by decide)

/-- The invariant every `VectorSpace` populated only through its own
operations satisfies: every stored index is below the table's size. -/
def VectorSpace.WF (vs : VectorSpace) : Prop :=
  ∀ p ∈ vs.by_token, p.2 < vs.by_token.length

theorem VectorSpace.get_index_cases (vs : VectorSpace) (token : String)
    (hwf : vs.WF) :
    ((vs.get_index token).1 < vs.by_token.length ∧ (vs.get_index token).2 = vs) ∨
    ((vs.get_index token).1 = vs.by_token.length ∧
      (vs.get_index token).2.by_token = vs.by_token ++ [(token, vs.by_token.length)]) := by
  cases hl : lookupToken vs.by_token token with
  | some i =>
    left
    rw [VectorSpace.get_index, hl]
    refine ⟨?_, rfl⟩
    show i < vs.by_token.length
    rw [lookupToken] at hl
    obtain ⟨p, hfind, hpi⟩ := Option.map_eq_some'.mp hl
    have hmem := List.mem_of_find?_eq_some hfind
    have hp2 := hwf p hmem
    omega
  | none =>
    right
    rw [VectorSpace.get_index, hl]
    exact ⟨rfl, rfl⟩

theorem VectorSpace.get_index_wf (vs : VectorSpace) (token : String)
    (hwf : vs.WF) : (vs.get_index token).2.WF := by
  rcases vs.get_index_cases token hwf with ⟨_, heq⟩ | ⟨_, heq⟩
  · rw [heq]; exact hwf
  · intro p hp
    rw [heq] at hp ⊢
    rw [List.mem_append, List.mem_singleton] at hp
    rw [List.length_append, List.length_singleton]
    rcases hp with hp | hp
    · have := hwf p hp
      omega
    · subst hp
      simp

theorem vectorizeGo_ok (toks : List String) :
    ∀ (vs : VectorSpace) (v : List Nat), vs.WF → v.length = vs.by_token.length →
      ∃ r, vs.vectorizeGo toks v = .ok r := by
  induction toks with
  | nil => intro vs v _ _; exact ⟨(v, vs), rfl⟩
  | cons token rest ih =>
    intro vs v hwf hv
    rcases vs.get_index_cases token hwf with ⟨hlt, heq⟩ | ⟨hfresh, heq⟩
    · obtain ⟨r, hr⟩ := ih (vs.get_index token).2
        (v.set (vs.get_index token).1 (v.getD (vs.get_index token).1 0 + 1))
        (vs.get_index_wf token hwf)
        (by rw [List.length_set, heq]; exact hv)
      exact ⟨r, ((vectorize_branch_spec vs token rest v).2.2 (by omega)).trans hr⟩
    · obtain ⟨r, hr⟩ := ih (vs.get_index token).2 (v ++ [1])
        (vs.get_index_wf token hwf)
        (by rw [List.length_append, List.length_singleton, heq,
              List.length_append, List.length_singleton]; omega)
      exact ⟨r, ((vectorize_branch_spec vs token rest v).2.1 (by omega)).trans hr⟩

/-- Claim C10: on a well-formed `VectorSpace` (one populated only through its
own operations), `get_index` answers either an existing index below the
table size or the fresh index equal to it, preserving well-formedness — so
`vectorize` never reaches its exception branch and returns a count vector
for every input. -/
theorem vectorize_never_raises (vs : VectorSpace) (hwf : vs.WF) :
    (∀ token : String,
      ((vs.get_index token).1 < vs.by_token.length ∧ (vs.get_index token).2 = vs) ∨
      ((vs.get_index token).1 = vs.by_token.length ∧
        (vs.get_index token).2.by_token =
          vs.by_token ++ [(token, vs.by_token.length)])) ∧
    (∀ token : String, (vs.get_index token).2.WF) ∧
    (∀ toks : List String, ∃ r, vs.vectorize toks = .ok r) := by
  refine ⟨fun token => vs.get_index_cases token hwf,
    fun token => vs.get_index_wf token hwf, fun toks => ?_⟩
  rw [VectorSpace.vectorize]
  exact vectorizeGo_ok toks vs (List.replicate vs.by_token.length 0) hwf
    (List.length_replicate _ _)

/-- Witness for claim C10 on the freshly constructed empty `VectorSpace`. -/
theorem vectorize_never_raises_witness :
    (∀ token : String,
      (((VectorSpace.mk [] []).get_index token).1 <
          (VectorSpace.mk [] []).by_token.length ∧
        ((VectorSpace.mk [] []).get_index token).2 = VectorSpace.mk [] []) ∨
      (((VectorSpace.mk [] []).get_index token).1 =
          (VectorSpace.mk [] []).by_token.length ∧
        ((VectorSpace.mk [] []).get_index token).2.by_token =
          (VectorSpace.mk [] []).by_token ++
            [(token, (VectorSpace.mk [] []).by_token.length)])) ∧
    (∀ token : String, ((VectorSpace.mk [] []).get_index token).2.WF) ∧
    (∀ toks : List String, ∃ r, (VectorSpace.mk [] []).vectorize toks = .ok r) :=
  vectorize_never_raises (VectorSpace.mk [] [])
    (fun p hp => absurd hp (List.not_mem_nil p))

end Woolf
